import Mathlib

/-!
Verification of the alpha-lab trading-strategy repository.

Shallow embedding of the numerical estimators and the per-symbol state the
strategies maintain:

* entropy-regime-detector: CalculatePermutationEntropy over ordinal patterns;
* fractal-dimension-breakout: CalculateHurstExponent (rescaled-range
  regression) and EstimateMoveDuration;
* vpin-toxicity-detector: ProcessBarForVPIN bucket accumulation and
  CalculateVPIN;
* the rolling deque buffers (collections.deque with maxlen) and the
  per-position tracking dictionaries of each strategy.

Machine floats in the source are modelled as real numbers; Python lists and
deques as Lean lists; a deque with maxlen is a list together with the
dequePush operation defined below. Definitions come first, theorems after.
-/

namespace AlphaLab

/-! ## Bounded deques (collections.deque with maxlen) -/

/-- Model of appending to a collections.deque with maxlen equal to cap:
the new element goes to the back and, when the deque is full, elements are
discarded from the front so that at most cap remain. -/
def dequePush {α : Type*} (cap : ℕ) (l : List α) (x : α) : List α :=
  let l' := l ++ [x]
  if l'.length ≤ cap then l' else l'.drop (l'.length - cap)

/-! ## entropy-regime-detector: CalculatePermutationEntropy

Source: src/strategies/entropy-regime-detector/main.py, lines 91-134.
Parameters from Initialize: embedding_dim = 5, tau = 1, lookback = 120.
Python sorted with a key function is a stable ascending sort; it is modelled
with insertionSort on the non-strict key comparison, which is also stable. -/

namespace Entropy

def embedding_dim : ℕ := 5

def tau : ℕ := 1

def lookback : ℕ := 120

/-- Ordinal pattern of one embedding vector: the code computes
tuple(sorted(range(m), key=lambda k: embedding[k])). -/
noncomputable def ordinalPattern (m : ℕ) (w : List ℝ) : List ℕ :=
  List.insertionSort (fun a b => w.getD a 0 ≤ w.getD b 0) (List.range m)

/-- Embedding vector at window start i: [prices[i + j * tau] for j in range(m)]. -/
noncomputable def embeddingAt (m τ : ℕ) (prices : List ℝ) (i : ℕ) : List ℝ :=
  (List.range m).map (fun j => prices.getD (i + j * τ) 0)

/-- The list of ordinal patterns over all windows i in range(n - (m - 1) * tau). -/
noncomputable def patternList (m τ : ℕ) (prices : List ℝ) : List (List ℕ) :=
  (List.range (prices.length - (m - 1) * τ)).map
    (fun i => ordinalPattern m (embeddingAt m τ prices i))

/-- Contribution of one distinct pattern to the entropy sum: the loop body
entropy -= p * log2(p), executed when p > 0, with p = count / total_patterns. -/
noncomputable def patTerm (pats : List (List ℕ)) (q : List ℕ) : ℝ :=
  let p : ℝ := (pats.count q : ℝ) / (pats.length : ℝ)
  if p > 0 then -(p * Real.logb 2 p) else 0

/-- Shannon entropy of the ordinal-pattern distribution: the code iterates
over pattern_counts.values(), adding -p * log2 p for each p > 0, where
p = count / total_patterns. Distinct keys of the dict are the dedup of the
pattern list and their values its counts. -/
noncomputable def shannonEntropy (pats : List (List ℕ)) : ℝ :=
  (pats.dedup.map (patTerm pats)).sum

/-- CalculatePermutationEntropy from the source, parameterized by the
embedding dimension m and time delay τ. -/
noncomputable def CalculatePermutationEntropyGen (m τ : ℕ) (prices : List ℝ) : Option ℝ :=
  if prices.length < m + (m - 1) * τ then none
  else
    let pats := patternList m τ prices
    if pats.length = 0 then none
    else
      let entropy := shannonEntropy pats
      let max_entropy := Real.logb 2 (Nat.factorial m)
      some (if max_entropy > 0 then entropy / max_entropy else 0)

/-- CalculatePermutationEntropy with the parameters the strategy sets in
Initialize (embedding_dim = 5, tau = 1). -/
noncomputable def CalculatePermutationEntropy (prices : List ℝ) : Option ℝ :=
  CalculatePermutationEntropyGen embedding_dim tau prices

end Entropy

/-! ## fractal-dimension-breakout: CalculateHurstExponent, EstimateMoveDuration

Source: src/strategies/fractal-dimension-breakout/main.py, lines 100-184.
Parameters from Initialize: hurst_lookback = 100, min_lag = 2, max_lag = 20. -/

namespace Hurst

def hurst_lookback : ℕ := 100

def min_lag : ℕ := 2

def max_lag : ℕ := 20

/-- np.mean of a list (sum divided by length; division by zero yields zero,
matching the fact that the code only takes means of nonempty lists). -/
noncomputable def listMean (l : List ℝ) : ℝ := l.sum / (l.length : ℝ)

/-- np.std with ddof=1 (sample standard deviation). -/
noncomputable def stdSamp (l : List ℝ) : ℝ :=
  Real.sqrt ((l.map (fun x => (x - listMean l) ^ 2)).sum / ((l.length : ℝ) - 1))

/-- np.diff: the list of consecutive differences. -/
noncomputable def listDiff (l : List ℝ) : List ℝ :=
  List.zipWith (fun a b => b - a) l l.tail

/-- np.cumsum: partial sums [x0, x0+x1, ...]. -/
noncomputable def cumsum (l : List ℝ) : List ℝ :=
  (List.range l.length).map (fun i => (l.take (i + 1)).sum)

/-- The rescaled range R/S of one subseries of length lag, starting at index
i * lag inside returns; None mirrors the continue and the S = 0 skip in the
source loop. -/
noncomputable def rsSubseries (returns : List ℝ) (lag : ℕ) (i : ℕ) : Option ℝ :=
  let subseries := (returns.drop (i * lag)).take lag
  if subseries.length < 2 then none
  else
    let mean_adj := subseries.map (fun x => x - listMean subseries)
    let cums := cumsum mean_adj
    let R := (cums.max?).getD 0 - (cums.min?).getD 0
    let S := stdSamp subseries
    if S > 0 then some (R / S) else none

/-- One (lag, mean R/S) point; None when every subseries was skipped,
mirroring the `if rs_subseries:` guard in the source. -/
noncomputable def rsAtLag (returns : List ℝ) (lag : ℕ) : Option (ℕ × ℝ) :=
  let n_subseries := returns.length / lag
  let rs_subseries := (List.range n_subseries).filterMap (rsSubseries returns lag)
  if rs_subseries ≠ [] then some (lag, listMean rs_subseries) else none

/-- The list rs_values over lags in range(min_lag, min(max_lag, len // 4)). -/
noncomputable def rsValues (returns : List ℝ) : List (ℕ × ℝ) :=
  (List.range' min_lag (min max_lag (returns.length / 4) - min_lag)).filterMap
    (rsAtLag returns)

/-- Least-squares slope, the formula scipy.stats.linregress computes. When
the x variance is zero the Lean division yields 0 where scipy yields nan;
the only theorem relying on slope clamps it either way. -/
noncomputable def lsSlope (xs ys : List ℝ) : ℝ :=
  let xbar := listMean xs
  let ybar := listMean ys
  (List.zipWith (fun x y => (x - xbar) * (y - ybar)) xs ys).sum /
    ((xs.map (fun x => (x - xbar) ^ 2)).sum)

/-- The log-log regression slope over the rs_values points. -/
noncomputable def hurstSlope (returns : List ℝ) : ℝ :=
  lsSlope ((rsValues returns).map (fun x => Real.log (x.1 : ℝ)))
    ((rsValues returns).map (fun x => Real.log x.2))

/-- CalculateHurstExponent from the source: keep the last hurst_lookback
prices, take log returns, compute R/S points, regress, clamp to
[0.01, 0.99]; None on each defensive guard. -/
noncomputable def CalculateHurstExponent (prices : List ℝ) : Option ℝ :=
  if prices.length < hurst_lookback then none
  else
    let returns := listDiff ((prices.drop (prices.length - hurst_lookback)).map Real.log)
    if returns.length < max_lag then none
    else
      if (rsValues returns).length < 3 then none
      else
        some (max 0.01 (min 0.99 (hurstSlope returns)))

/-- Python int() truncates toward zero. -/
noncomputable def pyInt (x : ℝ) : ℤ := if 0 ≤ x then ⌊x⌋ else ⌈x⌉

/-- EstimateMoveDuration from the source (lines 170-184). -/
noncomputable def EstimateMoveDuration (hurst : ℝ) : ℤ :=
  if hurst > 0.5 then
    pyInt (10 * (1 + (hurst - 0.5) * 4))
  else
    pyInt (5 * (1 - ((0.5 - hurst) * 3) * 0.5))

end Hurst

/-! ## vpin-toxicity-detector: ProcessBarForVPIN, CalculateVPIN

Source: src/strategies/vpin-toxicity-detector/main.py, lines 97-199.
Parameters from Initialize: bucket_size = 50000, n_buckets = 50,
sigma_lookback = 20; the price and VPIN history deques have maxlen 100.
The scipy norm.cdf trade classifier is the standard normal cdf. -/

namespace Vpin

def bucket_size : ℕ := 50000

def n_buckets : ℕ := 50

def sigma_lookback : ℕ := 20

/-- np.std with ddof=0 (population standard deviation), the numpy default
used for the BVC volatility estimate. -/
noncomputable def stdPop (l : List ℝ) : ℝ :=
  Real.sqrt ((l.map (fun x => (x - Hurst.listMean l) ^ 2)).sum / (l.length : ℝ))

/-- Standard normal cumulative distribution function (scipy norm.cdf). -/
noncomputable def normCdf (z : ℝ) : ℝ :=
  ProbabilityTheory.cdf (ProbabilityTheory.gaussianReal 0 1) z

/-- One completed volume bucket as stored in bucket_history. -/
structure Bucket where
  buy_volume : ℝ
  sell_volume : ℝ
  order_imbalance : ℝ

/-- A minute trade bar: close price and share volume (an integer in the
host data model). -/
structure Bar where
  close : ℝ
  volume : ℕ

/-- CalculateVPIN from the source (lines 184-199):
Sum of order imbalances over the last n_buckets buckets divided by
n_buckets * bucket_size; None with fewer than n_buckets buckets. -/
noncomputable def CalculateVPIN (hist : List Bucket) : Option ℝ :=
  if hist.length < n_buckets then none
  else
    let buckets := hist.drop (hist.length - n_buckets)
    let total_imbalance := (buckets.map Bucket.order_imbalance).sum
    let total_volume : ℝ := (n_buckets : ℝ) * (bucket_size : ℝ)
    some (if total_volume > 0 then total_imbalance / total_volume else 0)

/-- Bulk Volume Classification estimate of the buy volume of one bar
(lines 124-144): below sigma_lookback prices a 50/50 split, otherwise
volume * Phi(standardized log return). -/
noncomputable def bvcBuyVolume (price_history : List ℝ) (bar : Bar) : ℝ :=
  if price_history.length < sigma_lookback then (bar.volume : ℝ) * 0.5
  else
    let returns := Hurst.listDiff
      ((price_history.drop (price_history.length - sigma_lookback)).map Real.log)
    let sigma := if returns.length > 0 then stdPop returns else 0.01
    let price_change := if price_history.length > 0 then
      Real.log (bar.close / price_history.getLastD 0) else 0
    let z := if sigma > 0 then price_change / sigma else 0
    (bar.volume : ℝ) * normCdf z

/-- The mutable current-bucket accumulators together with the two deques the
while loop writes to. -/
structure BucketAcc where
  volume : ℕ
  buy_volume : ℝ
  trades : List (ℝ × ℕ × ℝ)
  bucket_history : List Bucket
  vpin_history : List (Option ℝ)

/-- One iteration of the while bucket volume >= bucket_size loop body
(lines 158-182): finalize the bucket pro rata, append it, append a VPIN
reading once n_buckets buckets exist, carry the overflow and reset trades. -/
noncomputable def bucketStep (acc : BucketAcc) : BucketAcc :=
  let overflow := acc.volume - bucket_size
  let overflow_ratio : ℝ :=
    if (acc.volume : ℝ) > 0 then (overflow : ℝ) / (acc.volume : ℝ) else 0
  let final_buy := acc.buy_volume * (1 - overflow_ratio)
  let final_sell := (bucket_size : ℝ) - final_buy
  let hist' := dequePush n_buckets acc.bucket_history
    ⟨final_buy, final_sell, |final_buy - final_sell|⟩
  let vhist' := if n_buckets ≤ hist'.length then
    dequePush 100 acc.vpin_history (CalculateVPIN hist') else acc.vpin_history
  ⟨overflow, acc.buy_volume * overflow_ratio, [], hist', vhist'⟩

/-- The while bucket volume >= bucket_size loop of ProcessBarForVPIN
(lines 157-182). -/
noncomputable def bucketLoop (acc : BucketAcc) : BucketAcc :=
  if h : bucket_size ≤ acc.volume then bucketLoop (bucketStep acc)
  else acc
termination_by acc.volume
decreasing_by
  simp only [bucketStep, bucket_size] at h ⊢
  omega

/-- Per-symbol state of the VPIN strategy buffers. -/
structure VpinState where
  volume : ℕ
  buy_volume : ℝ
  trades : List (ℝ × ℕ × ℝ)
  bucket_history : List Bucket
  price_history : List ℝ
  vpin_history : List (Option ℝ)

/-- ProcessBarForVPIN from the source (lines 115-182). -/
noncomputable def ProcessBarForVPIN (s : VpinState) (bar : Bar) : VpinState :=
  if bar.volume = 0 then s
  else
    let buy_vol := bvcBuyVolume s.price_history bar
    let acc : BucketAcc := ⟨s.volume + bar.volume, s.buy_volume + buy_vol,
      s.trades ++ [(bar.close, bar.volume, buy_vol)], s.bucket_history, s.vpin_history⟩
    let acc' := bucketLoop acc
    ⟨acc'.volume, acc'.buy_volume, acc'.trades, acc'.bucket_history,
      s.price_history, acc'.vpin_history⟩

/-- The per-symbol effect of one OnData call (lines 97-110): process the bar
for VPIN, then append the close to the price history (maxlen 100). -/
noncomputable def onBar (s : VpinState) (bar : Bar) : VpinState :=
  let s' := ProcessBarForVPIN s bar
  { s' with price_history := dequePush 100 s'.price_history bar.close }

/-- The state Initialize sets up: empty accumulators and histories. -/
def initState : VpinState := ⟨0, 0, [], [], [], []⟩

/-- Bucket histories reachable from Initialize by any sequence of bars. -/
inductive Reachable : VpinState → Prop
  | init : Reachable initState
  | step (s : VpinState) (bar : Bar) : Reachable s → Reachable (onBar s bar)

/-- Well-formedness of a completed bucket: buy and sell volumes are
nonnegative, they sum exactly to bucket_size, and order_imbalance is their
absolute difference. -/
def BucketWF (b : Bucket) : Prop :=
  0 ≤ b.buy_volume ∧ 0 ≤ b.sell_volume ∧
    b.buy_volume + b.sell_volume = (bucket_size : ℝ) ∧
    b.order_imbalance = |b.buy_volume - b.sell_volume|

/-- The state invariant maintained across bars: the accumulator satisfies
0 <= buy_volume <= volume, every completed bucket is well-formed, and the
deques respect their maxlen capacities. -/
def StateWF (s : VpinState) : Prop :=
  0 ≤ s.buy_volume ∧ s.buy_volume ≤ (s.volume : ℝ) ∧
    (∀ b ∈ s.bucket_history, BucketWF b) ∧
    s.bucket_history.length ≤ n_buckets ∧
    s.price_history.length ≤ 100 ∧
    s.vpin_history.length ≤ 100

end Vpin

/-! ## Rolling buffer models for C7

The per-symbol effect of the callbacks on the rolling history deques, for the
entropy strategy (price_buffer maxlen lookback + embedding_dim * tau = 125,
entropy_history maxlen 24) and the fractal strategy (price_buffer maxlen
hurst_lookback + 50 = 150, hurst_history maxlen 48). The trading decisions in
the callbacks do not touch these buffers and are omitted. -/

namespace EntBuf

structure State where
  price_buffer : List ℝ
  entropy_history : List ℝ

/-- OnData appends the close to the price buffer (maxlen 125). -/
noncomputable def onBar (s : State) (close : ℝ) : State :=
  let cap := Entropy.lookback + Entropy.embedding_dim * Entropy.tau
  { s with price_buffer := dequePush cap s.price_buffer close }

/-- The buffer effect of the scheduled AnalyzeRegimes callback (lines
166-183): skip below lookback prices, compute entropy of the last lookback
prices, skip a None, append the reading (maxlen 24). -/
noncomputable def analyze (s : State) : State :=
  if s.price_buffer.length < Entropy.lookback then s
  else
    match Entropy.CalculatePermutationEntropy
        (s.price_buffer.drop (s.price_buffer.length - Entropy.lookback)) with
    | none => s
    | some e => { s with entropy_history := dequePush 24 s.entropy_history e }

def initState : State := ⟨[], []⟩

inductive Reachable : State → Prop
  | init : Reachable initState
  | bar (s : State) (close : ℝ) : Reachable s → Reachable (onBar s close)
  | scheduled (s : State) : Reachable s → Reachable (analyze s)

end EntBuf

namespace FracBuf

structure State where
  price_buffer : List ℝ
  hurst_history : List ℝ

/-- OnData appends the close to the price buffer (maxlen 150). -/
noncomputable def onBar (s : State) (close : ℝ) : State :=
  { s with price_buffer := dequePush (Hurst.hurst_lookback + 50) s.price_buffer close }

/-- The buffer effect of the scheduled AnalyzeFractalDimension callback
(lines 349-363): skip below hurst_lookback prices, compute the Hurst
exponent, skip a None, append the reading (maxlen 48). -/
noncomputable def analyze (s : State) : State :=
  if s.price_buffer.length < Hurst.hurst_lookback then s
  else
    match Hurst.CalculateHurstExponent s.price_buffer with
    | none => s
    | some h => { s with hurst_history := dequePush 48 s.hurst_history h }

def initState : State := ⟨[], []⟩

inductive Reachable : State → Prop
  | init : Reachable initState
  | bar (s : State) (close : ℝ) : Reachable s → Reachable (onBar s close)
  | scheduled (s : State) : Reachable s → Reachable (analyze s)

end FracBuf

/-! ## Per-symbol position-tracking automata for C4

Portfolio quantities are modelled with the immediate-fill backtest
semantics: a market order for n shares changes the held quantity by n and
Liquidate sets it to 0. Each event below is one code path of a callback,
acting on one symbol. Conditions under which a path is selected that only
depend on indicator values (regime, momentum, confidence) are dropped,
which enlarges the set of modelled behaviors; conditions on the portfolio
quantity or on the tracking dictionaries are kept exactly. Dictionary reads
the source performs with a plain index (which would raise KeyError when the
key is absent) are modelled by a match whose fallback returns the state
unchanged; the invariants proved below show the fallback is unreachable. -/

namespace EntPos

/-- Tracked state for one symbol of the entropy strategy: portfolio
quantity, entry_prices[symbol] and stop_losses[symbol]. -/
structure State where
  qty : ℤ
  entry_price : Option ℝ
  stop_loss : Option ℝ

inductive Event where
  | buySignal (shares : ℕ) (price : ℝ)
  | sellSignal
  | reduceSignal
  | manage (price : ℝ)

/-- One code path of ExecuteSignals (lines 236-270) or ManagePositions
(lines 272-313) of the entropy strategy, for one symbol. -/
noncomputable def step (s : State) (e : Event) : State :=
  match e with
  | .buySignal shares price =>
      if 0 < shares then
        ⟨s.qty + shares, some price, some (price * (1 - 0.03))⟩
      else s
  | .sellSignal =>
      if 0 < s.qty then
        if s.entry_price.isSome then { qty := 0, entry_price := none, stop_loss := none }
        else { s with qty := 0 }
      else s
  | .reduceSignal =>
      if 0 < s.qty then
        let reduce_qty : ℤ := ((s.qty.toNat / 2 : ℕ) : ℤ)
        if 0 < reduce_qty then { s with qty := s.qty - reduce_qty } else s
      else s
  | .manage price =>
      match s.entry_price, s.stop_loss with
      | some entry, some stop =>
          if s.qty ≤ 0 then s
          else if price < stop then { qty := 0, entry_price := none, stop_loss := none }
          else if price ≥ entry * (1 + 0.05) then
            let sell_qty : ℤ := ((s.qty.toNat / 2 : ℕ) : ℤ)
            if 0 < sell_qty then ⟨s.qty - sell_qty, some entry, some entry⟩
            else s
          else if price > entry * 1.02 then
            if price * 0.98 > stop then { s with stop_loss := some (price * 0.98) } else s
          else s
      | _, _ => s

def initState : State := ⟨0, none, none⟩

inductive Reachable : State → Prop
  | init : Reachable initState
  | next (s : State) (e : Event) : Reachable s → Reachable (step s e)

/-- The entry dictionaries invariant: an entry exists iff the position is
open, and the stop dictionary has the same domain as the entry dictionary. -/
def Inv (s : State) : Prop :=
  0 ≤ s.qty ∧ (s.entry_price.isSome ↔ 0 < s.qty) ∧
    s.stop_loss.isSome = s.entry_price.isSome

end EntPos

namespace FracPos

/-- Tracked state for one symbol of the fractal strategy: portfolio
quantity, entry_prices, entry_hurst, expected_duration and bars_held. -/
structure State where
  qty : ℤ
  entry_price : Option ℝ
  entry_hurst : Option ℝ
  expected_duration : Option ℤ
  bars_held : Option ℕ

/-- CleanupPosition (lines 343-347): delete the symbol from all four
tracking dictionaries. -/
def cleanup (s : State) : State :=
  ⟨s.qty, none, none, none, none⟩

inductive Event where
  | enterLong (shares : ℕ) (price hurst : ℝ)
  | hedgeLiquidate
  | enterHedgeTLT (shares : ℕ) (price hurst : ℝ)
  | manage (price : ℝ)

/-- One code path of CheckBreakouts / EnterPosition (lines 204-282) or
ManagePositions (lines 284-341) of the fractal strategy, for one symbol.
enterHedgeTLT is the effect of a HEDGE entry on the TLT symbol, with hurst
the Hurst value of the triggering symbol. -/
noncomputable def step (s : State) (e : Event) : State :=
  match e with
  | .enterLong shares price hurst =>
      if s.entry_price = none then
        if 0 < shares then
          ⟨s.qty + shares, some price, some hurst, some (Hurst.EstimateMoveDuration hurst), some 0⟩
        else s
      else s
  | .hedgeLiquidate =>
      if s.entry_price = none then
        if 0 < s.qty then { s with qty := 0 } else s
      else s
  | .enterHedgeTLT shares price hurst =>
      if 0 < shares then
        ⟨s.qty + shares, some price, some hurst, some (Hurst.EstimateMoveDuration hurst), some 0⟩
      else s
  | .manage price =>
      match s.entry_price, s.entry_hurst, s.expected_duration with
      | some entry, some entry_h, some expected_dur =>
          let bars : ℕ := s.bars_held.getD 0 + 1
          let s1 := { s with bars_held := some bars }
          if s1.qty = 0 then cleanup s1
          else
            let pnl := if 0 < s1.qty then (price - entry) / entry else (entry - price) / entry
            let stop_mult := if entry_h > 0.5 then 1 + (entry_h - 0.5) else 1
            let current_stop := 0.025 * stop_mult
            if pnl < -current_stop then cleanup { s1 with qty := 0 }
            else
              let duration_ratio := (bars : ℝ) / (expected_dur : ℝ)
              if duration_ratio ≥ 1.5 then cleanup { s1 with qty := 0 }
              else
                let s2 := if duration_ratio ≥ 0.8 ∧ pnl > 0.02 then
                    let sell_qty : ℤ := (((2 * s1.qty.natAbs) / 5 : ℕ) : ℤ)
                    if 0 < sell_qty then
                      { s1 with qty := if 0 < s1.qty then s1.qty - sell_qty else s1.qty + sell_qty }
                    else s1
                  else s1
                if pnl > 0.03 ∧ s2.entry_price.isSome then
                  { s2 with entry_price := some (entry + (price - entry) * 0.3) }
                else s2
      | _, _, _ => s

def initState : State := ⟨0, none, none, none, none⟩

inductive Reachable : State → Prop
  | init : Reachable initState
  | next (s : State) (e : Event) : Reachable s → Reachable (step s e)

/-- The entry dictionaries invariant: an entry exists iff the position is
open, and the four tracking dictionaries have the same domain. -/
def Inv (s : State) : Prop :=
  0 ≤ s.qty ∧ (s.entry_price.isSome ↔ 0 < s.qty) ∧
    s.entry_hurst.isSome = s.entry_price.isSome ∧
    s.expected_duration.isSome = s.entry_price.isSome ∧
    s.bars_held.isSome = s.entry_price.isSome

end FracPos

namespace VpinPos

/-- Tracked state for one symbol of the VPIN strategy: portfolio quantity,
entry_prices, entry_vpin and stop_losses. -/
structure State where
  qty : ℤ
  entry_price : Option ℝ
  entry_vpin : Option ℝ
  stop_loss : Option ℝ

/-- CleanupPosition (lines 372-376). -/
def cleanup (s : State) : State :=
  { s with entry_price := none, entry_vpin := none, stop_loss := none }

inductive Event where
  | enterLong (shares : ℕ) (price vpin : ℝ)
  | manage (price : ℝ) (current_vpin : Option ℝ)

/-- One code path of EnterLong (lines 302-316) or ManagePositions (lines
318-370) of the VPIN strategy, for one symbol. current_vpin is the last
element of the VPIN history when nonempty. -/
noncomputable def step (s : State) (e : Event) : State :=
  match e with
  | .enterLong shares price vpin =>
      if 0 < shares then
        ⟨s.qty + shares, some price, some vpin, some (price * (1 - 0.02))⟩
      else s
  | .manage price current_vpin =>
      match s.entry_price, s.stop_loss with
      | some entry, some stop =>
          if s.qty ≤ 0 then cleanup s
          else
            let pnl := (price - entry) / entry
            if price < stop then cleanup { s with qty := 0 }
            else if pnl ≥ 0.04 then cleanup { s with qty := 0 }
            else
              match current_vpin, s.entry_vpin with
              | some cv, some ev =>
                  if ev - cv > 0.15 ∧ pnl > 0 then cleanup { s with qty := 0 }
                  else if pnl > 0.02 ∧ price * 0.985 > stop then
                    { s with stop_loss := some (price * 0.985) }
                  else s
              | _, _ =>
                  if pnl > 0.02 ∧ price * 0.985 > stop then
                    { s with stop_loss := some (price * 0.985) }
                  else s
      | _, _ => s

def initState : State := ⟨0, none, none, none⟩

inductive Reachable : State → Prop
  | init : Reachable initState
  | next (s : State) (e : Event) : Reachable s → Reachable (step s e)

/-- The entry dictionaries invariant: an entry exists iff the position is
open, and the three tracking dictionaries have the same domain. -/
def Inv (s : State) : Prop :=
  0 ≤ s.qty ∧ (s.entry_price.isSome ↔ 0 < s.qty) ∧
    s.entry_vpin.isSome = s.entry_price.isSome ∧
    s.stop_loss.isSome = s.entry_price.isSome

end VpinPos

namespace SecPos

/-- Tracked state for one symbol of the sector-rotation-velocity strategy:
portfolio quantity and entry_prices[symbol]. Source:
src/strategies/sector-rotation-velocity/main.py. -/
structure State where
  qty : ℤ
  entry_price : Option ℝ

inductive Event where
  | rebalanceEnter (shares : ℕ) (price : ℝ)
  | stopLoss (price : ℝ)
  | liquidateNotTop
  | drawdownLiquidate

/-- One code path of the sector strategy for one symbol: RebalancePortfolio
sets holdings and records entry_prices (lines 302-303); the OnData stop loss
(lines 148-155), the not-in-top liquidation and the drawdown liquidation
call Liquidate without deleting the entry_prices entry. -/
noncomputable def step (s : State) (e : Event) : State :=
  match e with
  | .rebalanceEnter shares price => { qty := (shares : ℤ), entry_price := some price }
  | .stopLoss price =>
      match s.entry_price with
      | some entry =>
          if 0 < s.qty ∧ price < entry * (1 - 0.08) then { s with qty := 0 } else s
      | none => s
  | .liquidateNotTop => if 0 < s.qty then { s with qty := 0 } else s
  | .drawdownLiquidate => { s with qty := 0 }

def initState : State := ⟨0, none⟩

inductive Reachable : State → Prop
  | init : Reachable initState
  | next (s : State) (e : Event) : Reachable s → Reachable (step s e)

end SecPos

/-! ## Theorems: bounded deques -/

theorem length_dequePush {α : Type*} (cap : ℕ) (l : List α) (x : α) :
    (dequePush cap l x).length ≤ max cap (l.length + 1) := by
  unfold dequePush
  by_cases h : (l ++ [x]).length ≤ cap
  · rw [if_pos h]
    simp only [List.length_append, List.length_cons, List.length_nil] at h ⊢
    omega
  · rw [if_neg h, List.length_drop]
    simp only [List.length_append, List.length_cons, List.length_nil] at h ⊢
    omega

theorem length_dequePush_le {α : Type*} (cap : ℕ) (l : List α) (x : α)
    (hl : l.length ≤ cap) : (dequePush cap l x).length ≤ cap := by
  unfold dequePush
  by_cases h : (l ++ [x]).length ≤ cap
  · rw [if_pos h]
    exact h
  · rw [if_neg h, List.length_drop]
    simp only [List.length_append, List.length_cons, List.length_nil] at h ⊢
    omega

/-- When the deque is full, a push discards exactly the oldest element. -/
theorem dequePush_full {α : Type*} (cap : ℕ) (l : List α) (x : α)
    (hl : l.length = cap) (hcap : 0 < cap) :
    dequePush cap l x = l.tail ++ [x] := by
  unfold dequePush
  have h : ¬ (l ++ [x]).length ≤ cap := by simp [hl]
  simp only [h, if_neg, List.length_append, List.length_cons, List.length_nil, hl]
  have hdrop : (cap + (0 + 1) - cap) = 1 := by omega
  rw [hdrop]
  cases l with
  | nil => simp at hl; omega
  | cons a as => simp

/-! ## Theorems: permutation entropy helper lemmas -/

theorem dedup_toFinset {α : Type*} [DecidableEq α] (l : List α) :
    l.dedup.toFinset = l.toFinset := by
  ext a
  simp [List.mem_toFinset, List.mem_dedup]

namespace Entropy

theorem ordinalPattern_perm (m : ℕ) (w : List ℝ) :
    List.Perm (ordinalPattern m w) (List.range m) :=
  List.perm_insertionSort _ _

theorem mem_patternList_perm {m τ : ℕ} {p : List ℝ} {q : List ℕ}
    (hq : q ∈ patternList m τ p) : List.Perm q (List.range m) := by
  unfold patternList at hq
  obtain ⟨i, _, rfl⟩ := List.mem_map.mp hq
  exact ordinalPattern_perm m _

/-- The dict pattern_counts has at most m! keys: every key is a permutation
of range(m). -/
theorem dedup_length_le_factorial {m : ℕ} {pats : List (List ℕ)}
    (hq : ∀ q ∈ pats, List.Perm q (List.range m)) :
    pats.dedup.length ≤ Nat.factorial m := by
  have h2 : pats.dedup ⊆ (List.range m).permutations := by
    intro q hqd
    exact List.mem_permutations.mpr (hq q (List.mem_dedup.mp hqd))
  have h3 := (List.subperm_of_subset (List.nodup_dedup pats) h2).length_le
  rwa [List.length_permutations, List.length_range] at h3

theorem patTerm_nonneg (pats : List (List ℕ)) (q : List ℕ) : 0 ≤ patTerm pats q := by
  unfold patTerm
  by_cases hp : ((pats.count q : ℝ) / (pats.length : ℝ)) > 0
  · rw [if_pos hp]
    have hle1 : ((pats.count q : ℝ) / (pats.length : ℝ)) ≤ 1 := by
      rcases Nat.eq_zero_or_pos pats.length with h0 | h0
      · simp [h0]
      · exact div_le_one_of_le₀ (by exact_mod_cast List.count_le_length q pats)
          (by positivity)
    have hlog : Real.logb 2 ((pats.count q : ℝ) / (pats.length : ℝ)) ≤ 0 :=
      Real.logb_nonpos one_lt_two hp.le hle1
    nlinarith [hp, hlog]
  · rw [if_neg hp]

theorem shannonEntropy_nonneg (pats : List (List ℕ)) : 0 ≤ shannonEntropy pats := by
  unfold shannonEntropy
  apply List.sum_nonneg
  intro x hx
  obtain ⟨q, _, rfl⟩ := List.mem_map.mp hx
  exact patTerm_nonneg pats q

theorem shannonEntropy_le_logb (pats : List (List ℕ)) (hne : pats ≠ []) :
    shannonEntropy pats ≤ Real.logb 2 (pats.dedup.length : ℝ) := by
  have hNlen : 0 < pats.length := List.length_pos.mpr hne
  have hN0 : (0 : ℝ) < (pats.length : ℝ) := by exact_mod_cast hNlen
  have hdne : pats.dedup ≠ [] := by
    intro h
    exact hne ((List.dedup_eq_nil pats).mp h)
  have hk0 : (0 : ℝ) < (pats.dedup.length : ℝ) := by
    exact_mod_cast List.length_pos.mpr hdne
  set N : ℝ := (pats.length : ℝ) with hNdef
  set k : ℝ := (pats.dedup.length : ℝ) with hkdef
  have hc : (0 : ℝ) < Real.log 2 := Real.log_pos one_lt_two
  have hcard : ((pats.toFinset.card : ℕ) : ℝ) = k := by
    rw [← dedup_toFinset, List.toFinset_card_of_nodup (List.nodup_dedup pats)]
  have hbeq : (instBEqOfDecidableEq : BEq (List ℕ)) = List.instBEq :=
    lawful_beq_subsingleton _ _
  have hsum_counts : pats.toFinset.sum (fun q => ((pats.count q : ℕ) : ℝ)) = N := by
    rw [← Nat.cast_sum, hNdef]
    have h := List.sum_toFinset_count_eq_length pats
    rw [hbeq] at h
    exact_mod_cast congrArg (fun n => ((n : ℕ) : ℝ)) h
  have hsum_p : pats.toFinset.sum (fun q => ((pats.count q : ℕ) : ℝ) / N) = 1 := by
    rw [← Finset.sum_div, hsum_counts, div_self hN0.ne']
  have hrepr : shannonEntropy pats = pats.toFinset.sum (patTerm pats) := by
    unfold shannonEntropy
    rw [← List.sum_toFinset (patTerm pats) (List.nodup_dedup pats), dedup_toFinset]
  have hterm : ∀ q ∈ pats.toFinset,
      patTerm pats q ≤ ((pats.count q : ℕ) : ℝ) / N * Real.logb 2 k +
        (1 / k - ((pats.count q : ℕ) : ℝ) / N) / Real.log 2 := by
    intro q hq
    have hcnt : 0 < pats.count q := List.count_pos_iff.mpr (List.mem_toFinset.mp hq)
    set p : ℝ := ((pats.count q : ℕ) : ℝ) / N with hpdef
    have hp0 : 0 < p := div_pos (by exact_mod_cast hcnt) hN0
    have hpt : patTerm pats q = -(p * Real.logb 2 p) := by
      unfold patTerm
      rw [if_pos hp0]
    rw [hpt]
    have hkey : Real.log (1 / (p * k)) ≤ 1 / (p * k) - 1 :=
      Real.log_le_sub_one_of_pos (by positivity)
    have hlog : Real.log (1 / (p * k)) = -Real.log p - Real.log k := by
      rw [one_div, Real.log_inv, Real.log_mul hp0.ne' hk0.ne']
      ring
    rw [hlog] at hkey
    have h4 : p * (-Real.log p - Real.log k) ≤ p * (1 / (p * k) - 1) :=
      mul_le_mul_of_nonneg_left hkey hp0.le
    have h3 : p * (1 / (p * k)) = 1 / k := by
      field_simp
    have key : -(p * Real.log p) ≤ p * Real.log k + (1 / k - p) := by
      nlinarith [h4, h3]
    calc -(p * Real.logb 2 p) = -(p * Real.log p) / Real.log 2 := by
          rw [Real.logb]
          ring
      _ ≤ (p * Real.log k + (1 / k - p)) / Real.log 2 := by
          exact (div_le_div_iff_of_pos_right hc).mpr key
      _ = p * Real.logb 2 k + (1 / k - p) / Real.log 2 := by
          rw [Real.logb]
          ring
  calc shannonEntropy pats = pats.toFinset.sum (patTerm pats) := hrepr
    _ ≤ pats.toFinset.sum (fun q => ((pats.count q : ℕ) : ℝ) / N * Real.logb 2 k +
        (1 / k - ((pats.count q : ℕ) : ℝ) / N) / Real.log 2) := Finset.sum_le_sum hterm
    _ = Real.logb 2 k := by
        rw [Finset.sum_add_distrib, ← Finset.sum_mul, hsum_p, one_mul, ← Finset.sum_div,
          Finset.sum_sub_distrib, hsum_p, Finset.sum_const, nsmul_eq_mul, hcard]
        rw [mul_one_div, div_self hk0.ne']
        simp

theorem patternList_length (m τ : ℕ) (p : List ℝ) :
    (patternList m τ p).length = p.length - (m - 1) * τ := by
  simp [patternList]

theorem CPE_none_of_short (p : List ℝ)
    (hp : p.length < embedding_dim + (embedding_dim - 1) * tau) :
    CalculatePermutationEntropy p = none := by
  unfold CalculatePermutationEntropy CalculatePermutationEntropyGen
  rw [if_pos hp]

end Entropy

theorem orderedInsert_congr {α : Type*} (r r' : α → α → Prop)
    [DecidableRel r] [DecidableRel r'] (a : α) (l : List α)
    (h : ∀ b ∈ l, r a b ↔ r' a b) :
    l.orderedInsert r a = l.orderedInsert r' a := by
  induction l with
  | nil => rfl
  | cons b t ih =>
    simp only [List.orderedInsert]
    by_cases hb : r a b
    · rw [if_pos hb, if_pos ((h b (List.mem_cons_self b t)).mp hb)]
    · rw [if_neg hb, if_neg (fun h' => hb ((h b (List.mem_cons_self b t)).mpr h')),
        ih (fun c hc => h c (List.mem_cons_of_mem b hc))]

theorem insertionSort_congr {α : Type*} (r r' : α → α → Prop)
    [DecidableRel r] [DecidableRel r'] (l : List α)
    (h : ∀ a ∈ l, ∀ b ∈ l, r a b ↔ r' a b) :
    List.insertionSort r l = List.insertionSort r' l := by
  induction l with
  | nil => rfl
  | cons a t ih =>
    simp only [List.insertionSort]
    rw [ih (fun x hx y hy =>
      h x (List.mem_cons_of_mem a hx) y (List.mem_cons_of_mem a hy))]
    apply orderedInsert_congr
    intro b hb
    have hbmem : b ∈ t := (List.perm_insertionSort r' t).mem_iff.mp hb
    exact h a (List.mem_cons_self a t) b (List.mem_cons_of_mem a hbmem)

namespace Entropy

/-- A stable sort of range(m) keyed by the embedding values is unchanged by a
positive affine transformation of the values: ties and strict comparisons are
both preserved. -/
theorem ordinalPattern_map_affine (m : ℕ) (w : List ℝ) (a b : ℝ) (ha : 0 < a)
    (hw : m ≤ w.length) :
    ordinalPattern m (w.map (fun x => a * x + b)) = ordinalPattern m w := by
  unfold ordinalPattern
  apply insertionSort_congr
  intro i hi j hj
  have hi' : i < w.length := lt_of_lt_of_le (List.mem_range.mp hi) hw
  have hj' : j < w.length := lt_of_lt_of_le (List.mem_range.mp hj) hw
  have hgi : (w.map (fun x => a * x + b)).getD i 0 = a * w.getD i 0 + b := by
    rw [List.getD_eq_getElem _ _ (by simpa using hi'), List.getD_eq_getElem _ _ hi',
      List.getElem_map]
  have hgj : (w.map (fun x => a * x + b)).getD j 0 = a * w.getD j 0 + b := by
    rw [List.getD_eq_getElem _ _ (by simpa using hj'), List.getD_eq_getElem _ _ hj',
      List.getElem_map]
  rw [hgi, hgj]
  constructor
  · intro h'
    nlinarith
  · intro h'
    nlinarith

theorem embeddingAt_map (m τ : ℕ) (p : List ℝ) (f : ℝ → ℝ) (i : ℕ)
    (hi : i + (m - 1) * τ < p.length) :
    embeddingAt m τ (p.map f) i = (embeddingAt m τ p i).map f := by
  unfold embeddingAt
  rw [List.map_map]
  apply List.map_congr_left
  intro j hj
  have hj' : j < m := List.mem_range.mp hj
  have hidx : i + j * τ < p.length := by
    have : j * τ ≤ (m - 1) * τ := Nat.mul_le_mul_right τ (by omega)
    omega
  simp only [Function.comp_apply]
  rw [List.getD_eq_getElem _ _ (by simpa using hidx), List.getD_eq_getElem _ _ hidx,
    List.getElem_map]

theorem patternList_map_affine (m τ : ℕ) (p : List ℝ) (a b : ℝ) (ha : 0 < a) :
    patternList m τ (p.map (fun x => a * x + b)) = patternList m τ p := by
  unfold patternList
  rw [List.length_map]
  apply List.map_congr_left
  intro i hi
  have hi' : i < p.length - (m - 1) * τ := List.mem_range.mp hi
  have hwin : i + (m - 1) * τ < p.length := by omega
  rw [embeddingAt_map m τ p _ i hwin]
  apply ordinalPattern_map_affine m _ a b ha
  simp [embeddingAt]

theorem CPEGen_map_affine (m τ : ℕ) (p : List ℝ) (a b : ℝ) (ha : 0 < a) :
    CalculatePermutationEntropyGen m τ (p.map (fun x => a * x + b)) =
      CalculatePermutationEntropyGen m τ p := by
  unfold CalculatePermutationEntropyGen
  rw [List.length_map, patternList_map_affine m τ p a b ha]

/-- Range of the normalized permutation entropy for any embedding dimension
at least 2: defined, nonnegative and at most 1 on long enough inputs. -/
theorem CPEGen_range (m τ : ℕ) (p : List ℝ) (hm : 2 ≤ m)
    (hp : m + (m - 1) * τ ≤ p.length) :
    ∃ v, CalculatePermutationEntropyGen m τ p = some v ∧ 0 ≤ v ∧ v ≤ 1 := by
  have hplen : (patternList m τ p).length = p.length - (m - 1) * τ :=
    patternList_length m τ p
  have hplenpos : 0 < (patternList m τ p).length := by omega
  have hne : patternList m τ p ≠ [] := by
    intro h
    rw [h] at hplenpos
    simp at hplenpos
  have hfact1 : (1 : ℝ) < ((Nat.factorial m : ℕ) : ℝ) := by
    have h2 : 2 ≤ Nat.factorial m := le_trans hm (Nat.self_le_factorial m)
    exact_mod_cast lt_of_lt_of_le one_lt_two (by exact_mod_cast h2)
  have hmax : (0 : ℝ) < Real.logb 2 ((Nat.factorial m : ℕ) : ℝ) :=
    Real.logb_pos one_lt_two hfact1
  have hH0 : 0 ≤ shannonEntropy (patternList m τ p) := shannonEntropy_nonneg _
  have hdeduppos : (0 : ℝ) < ((patternList m τ p).dedup.length : ℝ) := by
    have hd : (patternList m τ p).dedup ≠ [] :=
      fun h => hne ((List.dedup_eq_nil _).mp h)
    exact_mod_cast List.length_pos.mpr hd
  have hHle : shannonEntropy (patternList m τ p) ≤
      Real.logb 2 ((Nat.factorial m : ℕ) : ℝ) := by
    refine (shannonEntropy_le_logb _ hne).trans ?_
    refine Real.logb_le_logb_of_le one_lt_two hdeduppos ?_
    exact_mod_cast dedup_length_le_factorial (fun q hq => mem_patternList_perm hq)
  refine ⟨shannonEntropy (patternList m τ p) /
      Real.logb 2 ((Nat.factorial m : ℕ) : ℝ), ?_, ?_, ?_⟩
  · simp only [CalculatePermutationEntropyGen]
    rw [if_neg (by omega : ¬ p.length < m + (m - 1) * τ),
      if_neg (by omega : ¬ (patternList m τ p).length = 0), if_pos hmax]
  · exact div_nonneg hH0 hmax.le
  · rw [div_le_one hmax]
    exact hHle

end Entropy

/-! ## Theorems: Hurst exponent helper lemmas -/

/-- Every Some value of CalculateHurstExponent lies in [0.01, 0.99], being
the clamp of the regression slope. -/
theorem hurst_some_range {p : List ℝ} {h : ℝ}
    (hh : Hurst.CalculateHurstExponent p = some h) : 0.01 ≤ h ∧ h ≤ 0.99 := by
  simp only [Hurst.CalculateHurstExponent] at hh
  split_ifs at hh
  have hval := Option.some.inj hh
  constructor
  · rw [← hval]
    exact le_max_left _ _
  · rw [← hval]
    exact max_le (by norm_num) (min_le_left _ _)

/-! ## Claim theorems C2, C3, C5, C6, C9, C10 -/

/-- C2: For every input price list whose length is at least
embedding_dim + (embedding_dim - 1) * tau, CalculatePermutationEntropy
returns a normalized permutation entropy in the closed interval [0, 1]:
it is non-negative and never exceeds 1 because the Shannon entropy of the
ordinal-pattern distribution is bounded by log2(embedding_dim factorial),
the normalization constant. -/
theorem C2_entropy_range (p : List ℝ)
    (hp : Entropy.embedding_dim + (Entropy.embedding_dim - 1) * Entropy.tau ≤ p.length) :
    ∃ v, Entropy.CalculatePermutationEntropy p = some v ∧ 0 ≤ v ∧ v ≤ 1 := by
  unfold Entropy.CalculatePermutationEntropy
  exact Entropy.CPEGen_range Entropy.embedding_dim Entropy.tau p
    (by norm_num [Entropy.embedding_dim]) hp

/-- Witness for C2 at a concrete list of nine prices. -/
theorem C2_entropy_range_witness :
    Entropy.embedding_dim + (Entropy.embedding_dim - 1) * Entropy.tau ≤
      (List.replicate 9 (1 : ℝ)).length ∧
    ∃ v, Entropy.CalculatePermutationEntropy (List.replicate 9 (1 : ℝ)) = some v ∧
      0 ≤ v ∧ v ≤ 1 :=
  ⟨by norm_num [Entropy.embedding_dim, Entropy.tau],
    C2_entropy_range _ (by norm_num [Entropy.embedding_dim, Entropy.tau])⟩

/-- C3: For every input price list of length at least hurst_lookback (100),
CalculateHurstExponent returns either None or a Hurst exponent in the closed
interval [0.01, 0.99] (hence within [0, 1]), the value being the
rescaled-range log-log regression slope clamped to that interval. -/
theorem C3_hurst_range (p : List ℝ) (hp : Hurst.hurst_lookback ≤ p.length) :
    Hurst.CalculateHurstExponent p = none ∨
      ∃ h, Hurst.CalculateHurstExponent p = some h ∧ 0.01 ≤ h ∧ h ≤ 0.99 := by
  cases hh : Hurst.CalculateHurstExponent p with
  | none => exact Or.inl rfl
  | some h => exact Or.inr ⟨h, rfl, (hurst_some_range hh).1, (hurst_some_range hh).2⟩

/-- Witness for C3 at a concrete list of one hundred prices. -/
theorem C3_hurst_range_witness :
    Hurst.hurst_lookback ≤ (List.replicate 100 (1 : ℝ)).length ∧
    (Hurst.CalculateHurstExponent (List.replicate 100 (1 : ℝ)) = none ∨
      ∃ h, Hurst.CalculateHurstExponent (List.replicate 100 (1 : ℝ)) = some h ∧
        0.01 ≤ h ∧ h ≤ 0.99) :=
  ⟨by norm_num [Hurst.hurst_lookback],
    C3_hurst_range _ (by norm_num [Hurst.hurst_lookback])⟩

/-- C5: Every numeric estimator is guarded against short or empty buffers:
CalculatePermutationEntropy returns None below the embedding threshold,
CalculateHurstExponent returns None below hurst_lookback prices and when
fewer than 3 rescaled-range points are available, and CalculateVPIN returns
None below n_buckets completed buckets. The Lean functions are total, which
models that the guarded calls raise no exception, and they read only their
buffer argument, which models that strategy state is unchanged. -/
theorem C5_short_buffer_guards :
    (∀ p : List ℝ,
      p.length < Entropy.embedding_dim + (Entropy.embedding_dim - 1) * Entropy.tau →
      Entropy.CalculatePermutationEntropy p = none) ∧
    (∀ p : List ℝ, p.length < Hurst.hurst_lookback →
      Hurst.CalculateHurstExponent p = none) ∧
    (∀ p : List ℝ,
      (Hurst.rsValues (Hurst.listDiff
        ((p.drop (p.length - Hurst.hurst_lookback)).map Real.log))).length < 3 →
      Hurst.CalculateHurstExponent p = none) ∧
    (∀ hist : List Vpin.Bucket, hist.length < Vpin.n_buckets →
      Vpin.CalculateVPIN hist = none) := by
  refine ⟨?_, ?_, ?_, ?_⟩
  · intro p hp
    exact Entropy.CPE_none_of_short p hp
  · intro p hp
    simp only [Hurst.CalculateHurstExponent]
    rw [if_pos hp]
  · intro p hrs
    simp only [Hurst.CalculateHurstExponent]
    by_cases hlen : p.length < Hurst.hurst_lookback
    · rw [if_pos hlen]
    · rw [if_neg hlen]
      push_neg at hlen
      have hdlen : ((p.drop (p.length - Hurst.hurst_lookback)).map Real.log).length =
          Hurst.hurst_lookback := by
        simp only [List.length_map, List.length_drop]
        omega
      have hret : (Hurst.listDiff
          ((p.drop (p.length - Hurst.hurst_lookback)).map Real.log)).length =
          Hurst.hurst_lookback - 1 := by
        simp only [Hurst.listDiff, List.length_zipWith, List.length_tail, hdlen]
        omega
      rw [if_neg (by
        rw [hret]
        simp [Hurst.hurst_lookback, Hurst.max_lag]), if_pos hrs]
  · intro hist hh
    simp only [Vpin.CalculateVPIN]
    rw [if_pos hh]

/-- Witness for C5: the guards fire on concrete short inputs. -/
theorem C5_short_buffer_guards_witness :
    (([] : List ℝ).length <
        Entropy.embedding_dim + (Entropy.embedding_dim - 1) * Entropy.tau ∧
      Entropy.CalculatePermutationEntropy [] = none) ∧
    (([] : List ℝ).length < Hurst.hurst_lookback ∧
      Hurst.CalculateHurstExponent [] = none) ∧
    ((Hurst.rsValues (Hurst.listDiff
        ((([] : List ℝ).drop (([] : List ℝ).length - Hurst.hurst_lookback)).map
          Real.log))).length < 3 ∧
      Hurst.CalculateHurstExponent [] = none) ∧
    (([] : List Vpin.Bucket).length < Vpin.n_buckets ∧
      Vpin.CalculateVPIN [] = none) := by
  have hrs : (Hurst.rsValues (Hurst.listDiff
      ((([] : List ℝ).drop (([] : List ℝ).length - Hurst.hurst_lookback)).map
        Real.log))).length < 3 := by
    simp [Hurst.rsValues, Hurst.listDiff, Hurst.min_lag, Hurst.max_lag]
  refine ⟨⟨?_, C5_short_buffer_guards.1 [] ?_⟩, ⟨?_, C5_short_buffer_guards.2.1 [] ?_⟩,
    ⟨hrs, C5_short_buffer_guards.2.2.1 [] hrs⟩, ⟨?_, C5_short_buffer_guards.2.2.2 [] ?_⟩⟩ <;>
    norm_num [Entropy.embedding_dim, Entropy.tau, Hurst.hurst_lookback, Vpin.n_buckets]

/-- C6: Each numeric estimator is a pure function of the buffer it reads:
two calls on equal buffer contents return equal results. In this embedding
the estimators are functions of their buffer argument alone, so the two-run
determinism property is definitional. -/
theorem C6_estimators_deterministic :
    ∀ (p q : List ℝ) (h₁ h₂ : List Vpin.Bucket), p = q → h₁ = h₂ →
      Entropy.CalculatePermutationEntropy p = Entropy.CalculatePermutationEntropy q ∧
      Hurst.CalculateHurstExponent p = Hurst.CalculateHurstExponent q ∧
      Vpin.CalculateVPIN h₁ = Vpin.CalculateVPIN h₂ := by
  intro p q h₁ h₂ hpq hb
  subst hpq
  subst hb
  exact ⟨rfl, rfl, rfl⟩

/-- Witness for C6 at concrete buffers. -/
theorem C6_estimators_deterministic_witness :
    ([1, 2] : List ℝ) = [1, 2] ∧ ([] : List Vpin.Bucket) = [] ∧
      (Entropy.CalculatePermutationEntropy [1, 2] =
        Entropy.CalculatePermutationEntropy [1, 2] ∧
      Hurst.CalculateHurstExponent [1, 2] = Hurst.CalculateHurstExponent [1, 2] ∧
      Vpin.CalculateVPIN [] = Vpin.CalculateVPIN []) :=
  ⟨rfl, rfl, C6_estimators_deterministic [1, 2] [1, 2] [] [] rfl rfl⟩

/-- C9: For every hurst value in [0.01, 0.99], EstimateMoveDuration returns
an integer greater than or equal to 1; consequently, since every Some value
of CalculateHurstExponent lies in that interval, the division
bars / expected_dur in ManagePositions never divides by zero for a position
entered through EnterPosition. -/
theorem C9_duration_positive :
    (∀ h : ℝ, 0.01 ≤ h → h ≤ 0.99 → 1 ≤ Hurst.EstimateMoveDuration h) ∧
    (∀ (p : List ℝ) (h : ℝ), Hurst.CalculateHurstExponent p = some h →
      1 ≤ Hurst.EstimateMoveDuration h) := by
  have main : ∀ h : ℝ, 0.01 ≤ h → h ≤ 0.99 → 1 ≤ Hurst.EstimateMoveDuration h := by
    intro h h1 h2
    unfold Hurst.EstimateMoveDuration Hurst.pyInt
    split_ifs with hgt hx0 hx0
    · exact Int.le_floor.mpr (by push_cast; nlinarith)
    · exfalso
      push_neg at hx0
      nlinarith
    · exact Int.le_floor.mpr (by push_cast; nlinarith)
    · exfalso
      push_neg at hx0
      push_neg at hgt
      nlinarith
  exact ⟨main, fun p h hh => main h (hurst_some_range hh).1 (hurst_some_range hh).2⟩

/-- Witness for C9 at hurst = 0.5. -/
theorem C9_duration_positive_witness :
    (0.01 : ℝ) ≤ 0.5 ∧ (0.5 : ℝ) ≤ 0.99 ∧ 1 ≤ Hurst.EstimateMoveDuration 0.5 :=
  ⟨by norm_num, by norm_num, C9_duration_positive.1 0.5 (by norm_num) (by norm_num)⟩

/-- C10: CalculatePermutationEntropy is invariant under positive affine
transformations of its input: for every price list p, scale a > 0 and shift
b, the entropy of [a * x + b for x in p] equals the entropy of p, because
each stable ordinal pattern is unchanged by such a transformation. -/
theorem C10_entropy_affine_invariance (a b : ℝ) (p : List ℝ) (ha : 0 < a) :
    Entropy.CalculatePermutationEntropy (p.map (fun x => a * x + b)) =
      Entropy.CalculatePermutationEntropy p := by
  unfold Entropy.CalculatePermutationEntropy
  exact Entropy.CPEGen_map_affine _ _ p a b ha

/-- Witness for C10 at a concrete scale, shift and price list. -/
theorem C10_entropy_affine_invariance_witness :
    (0 : ℝ) < 2 ∧
    Entropy.CalculatePermutationEntropy (([1, 3, 2] : List ℝ).map (fun x => 2 * x + 1)) =
      Entropy.CalculatePermutationEntropy [1, 3, 2] :=
  ⟨by norm_num, C10_entropy_affine_invariance 2 1 [1, 3, 2] (by norm_num)⟩

/-! ## Theorems: VPIN state invariants -/

theorem dequePush_subset {α : Type*} (cap : ℕ) (l : List α) (x : α) :
    dequePush cap l x ⊆ l ++ [x] := by
  unfold dequePush
  by_cases h : (l ++ [x]).length ≤ cap
  · rw [if_pos h]
    exact List.Subset.refl _
  · rw [if_neg h]
    exact List.drop_subset _ _

theorem normCdf_nonneg (z : ℝ) : 0 ≤ Vpin.normCdf z :=
  ProbabilityTheory.cdf_nonneg _ _

theorem normCdf_le_one (z : ℝ) : Vpin.normCdf z ≤ 1 :=
  ProbabilityTheory.cdf_le_one _ _

/-- The BVC classifier assigns a buy volume between 0 and the bar volume,
in both the cold-start branch and the Phi branch. -/
theorem bvcBuyVolume_bounds (ph : List ℝ) (bar : Vpin.Bar) :
    0 ≤ Vpin.bvcBuyVolume ph bar ∧ Vpin.bvcBuyVolume ph bar ≤ (bar.volume : ℝ) := by
  have hv : (0 : ℝ) ≤ (bar.volume : ℝ) := Nat.cast_nonneg _
  simp only [Vpin.bvcBuyVolume]
  split_ifs with h
  · exact ⟨by positivity, by nlinarith⟩
  all_goals
    exact ⟨mul_nonneg hv (normCdf_nonneg _), mul_le_of_le_one_right hv (normCdf_le_one _)⟩

/-- One loop iteration preserves the accumulator invariant
0 <= buy_volume <= volume, the well-formedness of every stored bucket, and
the deque capacities; the bucket volume drops by exactly bucket_size. -/
theorem bucketStep_wf (acc : Vpin.BucketAcc) (h : Vpin.bucket_size ≤ acc.volume)
    (h0 : 0 ≤ acc.buy_volume) (h1 : acc.buy_volume ≤ (acc.volume : ℝ))
    (h2 : ∀ b ∈ acc.bucket_history, Vpin.BucketWF b)
    (h3 : acc.bucket_history.length ≤ Vpin.n_buckets)
    (h4 : acc.vpin_history.length ≤ 100) :
    0 ≤ (Vpin.bucketStep acc).buy_volume ∧
      (Vpin.bucketStep acc).buy_volume ≤ ((Vpin.bucketStep acc).volume : ℝ) ∧
      (∀ b ∈ (Vpin.bucketStep acc).bucket_history, Vpin.BucketWF b) ∧
      (Vpin.bucketStep acc).bucket_history.length ≤ Vpin.n_buckets ∧
      (Vpin.bucketStep acc).vpin_history.length ≤ 100 := by
  have hvolpos : (0 : ℝ) < (acc.volume : ℝ) := by
    have hp : 0 < acc.volume := lt_of_lt_of_le (by norm_num [Vpin.bucket_size]) h
    exact_mod_cast hp
  have hov : ((acc.volume - Vpin.bucket_size : ℕ) : ℝ) =
      (acc.volume : ℝ) - (Vpin.bucket_size : ℝ) := Nat.cast_sub h
  have hbs0 : (0 : ℝ) ≤ (Vpin.bucket_size : ℝ) := Nat.cast_nonneg _
  simp only [Vpin.bucketStep, if_pos hvolpos]
  have hratio0 : 0 ≤ ((acc.volume - Vpin.bucket_size : ℕ) : ℝ) / (acc.volume : ℝ) :=
    div_nonneg (Nat.cast_nonneg _) (Nat.cast_nonneg _)
  have hratio1 : ((acc.volume - Vpin.bucket_size : ℕ) : ℝ) / (acc.volume : ℝ) ≤ 1 := by
    rw [div_le_one hvolpos, hov]
    linarith
  refine ⟨mul_nonneg h0 hratio0, ?_, ?_, ?_, ?_⟩
  · calc acc.buy_volume * (((acc.volume - Vpin.bucket_size : ℕ) : ℝ) / (acc.volume : ℝ))
        ≤ (acc.volume : ℝ) * (((acc.volume - Vpin.bucket_size : ℕ) : ℝ) / (acc.volume : ℝ)) :=
          mul_le_mul_of_nonneg_right h1 hratio0
      _ = ((acc.volume - Vpin.bucket_size : ℕ) : ℝ) := by
          field_simp
  · intro b hb
    rcases List.mem_append.mp (dequePush_subset _ _ _ hb) with hmem | hnew
    · exact h2 b hmem
    · have hfb0 : 0 ≤ acc.buy_volume *
          (1 - ((acc.volume - Vpin.bucket_size : ℕ) : ℝ) / (acc.volume : ℝ)) :=
        mul_nonneg h0 (by linarith)
      have hfble : acc.buy_volume *
          (1 - ((acc.volume - Vpin.bucket_size : ℕ) : ℝ) / (acc.volume : ℝ)) ≤
          (Vpin.bucket_size : ℝ) := by
        calc acc.buy_volume *
            (1 - ((acc.volume - Vpin.bucket_size : ℕ) : ℝ) / (acc.volume : ℝ))
            ≤ (acc.volume : ℝ) *
              (1 - ((acc.volume - Vpin.bucket_size : ℕ) : ℝ) / (acc.volume : ℝ)) :=
              mul_le_mul_of_nonneg_right h1 (by linarith)
          _ = (Vpin.bucket_size : ℝ) := by
              rw [hov]
              field_simp
      rw [List.mem_singleton.mp hnew]
      exact ⟨hfb0, by simpa using hfble, by ring, rfl⟩
  · exact length_dequePush_le _ _ _ h3
  · split_ifs with hvp
    · exact length_dequePush_le _ _ _ h4
    · exact h4

theorem bucketStep_volume (acc : Vpin.BucketAcc) :
    (Vpin.bucketStep acc).volume = acc.volume - Vpin.bucket_size := rfl

theorem bucketLoop_of_lt (acc : Vpin.BucketAcc) (h : ¬ Vpin.bucket_size ≤ acc.volume) :
    Vpin.bucketLoop acc = acc := by
  rw [Vpin.bucketLoop, dif_neg h]

theorem bucketLoop_of_le (acc : Vpin.BucketAcc) (h : Vpin.bucket_size ≤ acc.volume) :
    Vpin.bucketLoop acc = Vpin.bucketLoop (Vpin.bucketStep acc) := by
  rw [Vpin.bucketLoop, dif_pos h]

/-- The while loop of ProcessBarForVPIN preserves the accumulator invariant,
by induction on an upper bound of the accumulated bucket volume. -/
theorem bucketLoop_wf_aux (n : ℕ) : ∀ acc : Vpin.BucketAcc, acc.volume ≤ n →
    0 ≤ acc.buy_volume → acc.buy_volume ≤ (acc.volume : ℝ) →
    (∀ b ∈ acc.bucket_history, Vpin.BucketWF b) →
    acc.bucket_history.length ≤ Vpin.n_buckets →
    acc.vpin_history.length ≤ 100 →
    0 ≤ (Vpin.bucketLoop acc).buy_volume ∧
      (Vpin.bucketLoop acc).buy_volume ≤ ((Vpin.bucketLoop acc).volume : ℝ) ∧
      (∀ b ∈ (Vpin.bucketLoop acc).bucket_history, Vpin.BucketWF b) ∧
      (Vpin.bucketLoop acc).bucket_history.length ≤ Vpin.n_buckets ∧
      (Vpin.bucketLoop acc).vpin_history.length ≤ 100 := by
  induction n with
  | zero =>
    intro acc hle h0 h1 h2 h3 h4
    have hneg : ¬ Vpin.bucket_size ≤ acc.volume := by
      simp only [Vpin.bucket_size]
      omega
    rw [bucketLoop_of_lt acc hneg]
    exact ⟨h0, h1, h2, h3, h4⟩
  | succ n ihn =>
    intro acc hle h0 h1 h2 h3 h4
    by_cases h : Vpin.bucket_size ≤ acc.volume
    · rw [bucketLoop_of_le acc h]
      obtain ⟨g0, g1, g2, g3, g4⟩ := bucketStep_wf acc h h0 h1 h2 h3 h4
      apply ihn (Vpin.bucketStep acc) _ g0 g1 g2 g3 g4
      rw [bucketStep_volume]
      have hbs1 : 1 ≤ Vpin.bucket_size := by norm_num [Vpin.bucket_size]
      omega
    · rw [bucketLoop_of_lt acc h]
      exact ⟨h0, h1, h2, h3, h4⟩

theorem bucketLoop_wf (acc : Vpin.BucketAcc)
    (h0 : 0 ≤ acc.buy_volume) (h1 : acc.buy_volume ≤ (acc.volume : ℝ))
    (h2 : ∀ b ∈ acc.bucket_history, Vpin.BucketWF b)
    (h3 : acc.bucket_history.length ≤ Vpin.n_buckets)
    (h4 : acc.vpin_history.length ≤ 100) :
    0 ≤ (Vpin.bucketLoop acc).buy_volume ∧
      (Vpin.bucketLoop acc).buy_volume ≤ ((Vpin.bucketLoop acc).volume : ℝ) ∧
      (∀ b ∈ (Vpin.bucketLoop acc).bucket_history, Vpin.BucketWF b) ∧
      (Vpin.bucketLoop acc).bucket_history.length ≤ Vpin.n_buckets ∧
      (Vpin.bucketLoop acc).vpin_history.length ≤ 100 :=
  bucketLoop_wf_aux acc.volume acc (le_refl _) h0 h1 h2 h3 h4

/-- ProcessBarForVPIN preserves the state invariant. -/
theorem processBar_wf (s : Vpin.VpinState) (bar : Vpin.Bar) (h : Vpin.StateWF s) :
    Vpin.StateWF (Vpin.ProcessBarForVPIN s bar) := by
  obtain ⟨h0, h1, h2, h3, h4, h5⟩ := h
  simp only [Vpin.ProcessBarForVPIN]
  split_ifs with hv
  · exact ⟨h0, h1, h2, h3, h4, h5⟩
  · have hb := bvcBuyVolume_bounds s.price_history bar
    have hacc := bucketLoop_wf
      ⟨s.volume + bar.volume, s.buy_volume + Vpin.bvcBuyVolume s.price_history bar,
        s.trades ++ [(bar.close, bar.volume, Vpin.bvcBuyVolume s.price_history bar)],
        s.bucket_history, s.vpin_history⟩
      (by exact add_nonneg h0 hb.1)
      (by
        push_cast
        exact add_le_add h1 hb.2)
      h2 h3 h5
    exact ⟨hacc.1, hacc.2.1, hacc.2.2.1, hacc.2.2.2.1, h4, hacc.2.2.2.2⟩

/-- The per-symbol OnData effect preserves the state invariant. -/
theorem onBar_wf (s : Vpin.VpinState) (bar : Vpin.Bar) (h : Vpin.StateWF s) :
    Vpin.StateWF (Vpin.onBar s bar) := by
  have h' := processBar_wf s bar h
  obtain ⟨h0, h1, h2, h3, h4, h5⟩ := h'
  exact ⟨h0, h1, h2, h3, length_dequePush_le _ _ _ h4, h5⟩

theorem initState_wf : Vpin.StateWF Vpin.initState := by
  refine ⟨le_refl 0, by norm_num [Vpin.initState], ?_, ?_, ?_, ?_⟩ <;>
    simp [Vpin.initState]

/-- Every reachable VPIN state satisfies the invariant. -/
theorem vpin_reachable_wf (s : Vpin.VpinState) (hs : Vpin.Reachable s) :
    Vpin.StateWF s := by
  induction hs with
  | init => exact initState_wf
  | step s bar _ ih => exact onBar_wf s bar ih

/-! ## Claim theorems C1 and C8 -/

/-- C8: Every completed bucket that ProcessBarForVPIN appends to
bucket_history satisfies buy_volume >= 0, sell_volume >= 0 and
buy_volume + sell_volume = bucket_size exactly, hence
order_imbalance <= bucket_size; this holds for every sequence of bars
because the accumulator invariant 0 <= buy_volume <= volume is preserved
across the overflow-carry loop. -/
theorem C8_bucket_conservation :
    ∀ s : Vpin.VpinState, Vpin.Reachable s →
      (0 ≤ s.buy_volume ∧ s.buy_volume ≤ (s.volume : ℝ)) ∧
      ∀ b ∈ s.bucket_history, 0 ≤ b.buy_volume ∧ 0 ≤ b.sell_volume ∧
        b.buy_volume + b.sell_volume = (Vpin.bucket_size : ℝ) ∧
        b.order_imbalance ≤ (Vpin.bucket_size : ℝ) := by
  intro s hs
  obtain ⟨h0, h1, h2, _, _, _⟩ := vpin_reachable_wf s hs
  refine ⟨⟨h0, h1⟩, ?_⟩
  intro b hb
  obtain ⟨hb0, hb1, hb2, hb3⟩ := h2 b hb
  refine ⟨hb0, hb1, hb2, ?_⟩
  rw [hb3]
  exact abs_le.mpr ⟨by linarith, by linarith⟩

/-- Witness for C8 at the initial state. -/
theorem C8_bucket_conservation_witness :
    Vpin.Reachable Vpin.initState ∧
    ((0 ≤ Vpin.initState.buy_volume ∧
        Vpin.initState.buy_volume ≤ (Vpin.initState.volume : ℝ)) ∧
      ∀ b ∈ Vpin.initState.bucket_history, 0 ≤ b.buy_volume ∧ 0 ≤ b.sell_volume ∧
        b.buy_volume + b.sell_volume = (Vpin.bucket_size : ℝ) ∧
        b.order_imbalance ≤ (Vpin.bucket_size : ℝ)) :=
  ⟨Vpin.Reachable.init, C8_bucket_conservation Vpin.initState Vpin.Reachable.init⟩

/-- C1: For every bucket history produced by ProcessBarForVPIN that contains
at least n_buckets (50) completed buckets, CalculateVPIN returns a value in
the closed interval [0, 1]; with fewer completed buckets it returns None. -/
theorem C1_vpin_range :
    ∀ s : Vpin.VpinState, Vpin.Reachable s →
      (Vpin.n_buckets ≤ s.bucket_history.length →
        ∃ v, Vpin.CalculateVPIN s.bucket_history = some v ∧ 0 ≤ v ∧ v ≤ 1) ∧
      (s.bucket_history.length < Vpin.n_buckets →
        Vpin.CalculateVPIN s.bucket_history = none) := by
  intro s hs
  obtain ⟨_, _, h2, _, _, _⟩ := vpin_reachable_wf s hs
  constructor
  · intro hlen
    have htv : ((Vpin.n_buckets : ℝ) * (Vpin.bucket_size : ℝ)) > 0 := by
      norm_num [Vpin.n_buckets, Vpin.bucket_size]
    set buckets := s.bucket_history.drop
      (s.bucket_history.length - Vpin.n_buckets) with hbuckets
    have hsub : buckets ⊆ s.bucket_history := List.drop_subset _ _
    have hblen : buckets.length = Vpin.n_buckets := by
      rw [hbuckets, List.length_drop]
      omega
    have hsum0 : 0 ≤ (buckets.map Vpin.Bucket.order_imbalance).sum := by
      apply List.sum_nonneg
      intro x hx
      obtain ⟨b, hbmem, rfl⟩ := List.mem_map.mp hx
      obtain ⟨hb0, hb1, hb2, hb3⟩ := h2 b (hsub hbmem)
      rw [hb3]
      exact abs_nonneg _
    have hsumle : (buckets.map Vpin.Bucket.order_imbalance).sum ≤
        (Vpin.n_buckets : ℝ) * (Vpin.bucket_size : ℝ) := by
      have hle : ∀ x ∈ buckets.map Vpin.Bucket.order_imbalance,
          x ≤ (Vpin.bucket_size : ℝ) := by
        intro x hx
        obtain ⟨b, hbmem, rfl⟩ := List.mem_map.mp hx
        obtain ⟨hb0, hb1, hb2, hb3⟩ := h2 b (hsub hbmem)
        rw [hb3]
        exact abs_le.mpr ⟨by linarith, by linarith⟩
      have := List.sum_le_card_nsmul _ _ hle
      rwa [List.length_map, hblen, nsmul_eq_mul] at this
    refine ⟨(buckets.map Vpin.Bucket.order_imbalance).sum /
        ((Vpin.n_buckets : ℝ) * (Vpin.bucket_size : ℝ)), ?_, ?_, ?_⟩
    · simp only [Vpin.CalculateVPIN]
      rw [if_neg (by omega), if_pos htv]
    · exact div_nonneg hsum0 htv.le
    · rw [div_le_one htv]
      exact hsumle
  · intro hlen
    simp only [Vpin.CalculateVPIN]
    rw [if_pos hlen]

/-- Witness for C1 at the initial state, which has no completed buckets. -/
theorem C1_vpin_range_witness :
    Vpin.Reachable Vpin.initState ∧
    Vpin.initState.bucket_history.length < Vpin.n_buckets ∧
    Vpin.CalculateVPIN Vpin.initState.bucket_history = none :=
  ⟨Vpin.Reachable.init, by norm_num [Vpin.initState, Vpin.n_buckets],
    (C1_vpin_range Vpin.initState Vpin.Reachable.init).2
      (by norm_num [Vpin.initState, Vpin.n_buckets])⟩

/-! ## Theorems: buffer capacity invariants -/

theorem entbuf_reachable_caps (s : EntBuf.State) (hs : EntBuf.Reachable s) :
    s.price_buffer.length ≤ Entropy.lookback + Entropy.embedding_dim * Entropy.tau ∧
      s.entropy_history.length ≤ 24 := by
  induction hs with
  | init => simp [EntBuf.initState]
  | bar s close _ ih =>
    exact ⟨length_dequePush_le _ _ _ ih.1, ih.2⟩
  | scheduled s _ ih =>
    simp only [EntBuf.analyze]
    split_ifs with hlen
    · exact ih
    · cases hE : Entropy.CalculatePermutationEntropy
          (s.price_buffer.drop (s.price_buffer.length - Entropy.lookback)) with
      | none => exact ih
      | some e => exact ⟨ih.1, length_dequePush_le _ _ _ ih.2⟩

theorem fracbuf_reachable_caps (s : FracBuf.State) (hs : FracBuf.Reachable s) :
    s.price_buffer.length ≤ Hurst.hurst_lookback + 50 ∧
      s.hurst_history.length ≤ 48 := by
  induction hs with
  | init => simp [FracBuf.initState]
  | bar s close _ ih =>
    exact ⟨length_dequePush_le _ _ _ ih.1, ih.2⟩
  | scheduled s _ ih =>
    simp only [FracBuf.analyze]
    split_ifs with hlen
    · exact ih
    · cases hE : Hurst.CalculateHurstExponent s.price_buffer with
      | none => exact ih
      | some h => exact ⟨ih.1, length_dequePush_le _ _ _ ih.2⟩

/-! ## Claim theorem C7 -/

/-- C7: Every rolling history buffer is fixed-capacity: after any sequence
of OnData and scheduled-analysis callbacks, the length of each price,
entropy, Hurst, bucket and VPIN history deque never exceeds the capacity
set at Initialize, and an append to a full buffer discards exactly the
oldest element. -/
theorem C7_buffer_capacity :
    (∀ s : Vpin.VpinState, Vpin.Reachable s →
      s.price_history.length ≤ 100 ∧
      s.bucket_history.length ≤ Vpin.n_buckets ∧
      s.vpin_history.length ≤ 100) ∧
    (∀ s : EntBuf.State, EntBuf.Reachable s →
      s.price_buffer.length ≤ Entropy.lookback + Entropy.embedding_dim * Entropy.tau ∧
      s.entropy_history.length ≤ 24) ∧
    (∀ s : FracBuf.State, FracBuf.Reachable s →
      s.price_buffer.length ≤ Hurst.hurst_lookback + 50 ∧
      s.hurst_history.length ≤ 48) ∧
    (∀ (cap : ℕ) (l : List ℝ) (x : ℝ), l.length = cap → 0 < cap →
      dequePush cap l x = l.tail ++ [x]) := by
  refine ⟨?_, entbuf_reachable_caps, fracbuf_reachable_caps, ?_⟩
  · intro s hs
    obtain ⟨_, _, _, h3, h4, h5⟩ := vpin_reachable_wf s hs
    exact ⟨h4, h3, h5⟩
  · intro cap l x hl hcap
    exact dequePush_full cap l x hl hcap

/-- Witness for C7 at the initial states and a concrete full deque. -/
theorem C7_buffer_capacity_witness :
    (Vpin.Reachable Vpin.initState ∧
      Vpin.initState.price_history.length ≤ 100 ∧
      Vpin.initState.bucket_history.length ≤ Vpin.n_buckets ∧
      Vpin.initState.vpin_history.length ≤ 100) ∧
    (EntBuf.Reachable EntBuf.initState ∧
      EntBuf.initState.price_buffer.length ≤
        Entropy.lookback + Entropy.embedding_dim * Entropy.tau ∧
      EntBuf.initState.entropy_history.length ≤ 24) ∧
    (FracBuf.Reachable FracBuf.initState ∧
      FracBuf.initState.price_buffer.length ≤ Hurst.hurst_lookback + 50 ∧
      FracBuf.initState.hurst_history.length ≤ 48) ∧
    (([(5 : ℝ)].length = 1 ∧ 0 < 1) ∧ dequePush 1 [(5 : ℝ)] 7 = [(5 : ℝ)].tail ++ [7]) :=
  ⟨⟨Vpin.Reachable.init, C7_buffer_capacity.1 Vpin.initState Vpin.Reachable.init⟩,
    ⟨EntBuf.Reachable.init, C7_buffer_capacity.2.1 EntBuf.initState EntBuf.Reachable.init⟩,
    ⟨FracBuf.Reachable.init, C7_buffer_capacity.2.2.1 FracBuf.initState FracBuf.Reachable.init⟩,
    ⟨⟨by simp, by norm_num⟩, C7_buffer_capacity.2.2.2 1 [(5 : ℝ)] 7 (by simp) (by norm_num)⟩⟩

/-! ## Theorems: position-tracking invariants -/

theorem entpos_step_inv (s : EntPos.State) (e : EntPos.Event) (h : EntPos.Inv s) :
    EntPos.Inv (EntPos.step s e) := by
  obtain ⟨q, ep, sl⟩ := s
  obtain ⟨h0, h1, h2⟩ := h
  simp only [EntPos.Inv] at h0 h1 h2
  cases e with
  | buySignal shares price =>
    simp only [EntPos.step]
    split_ifs with hs
    · refine ⟨by simp only [EntPos.Inv]; omega, ?_, rfl⟩
      simp only [Option.isSome_some]
      simp only [true_iff]
      omega
    · exact ⟨h0, h1, h2⟩
  | sellSignal =>
    simp only [EntPos.step]
    split_ifs with hq hsome
    · simp [EntPos.Inv]
    · have hep : ep = none := Option.not_isSome_iff_eq_none.mp hsome
      subst hep
      exact ⟨le_refl 0, by simp, h2⟩
    · exact ⟨h0, h1, h2⟩
  | reduceSignal =>
    simp only [EntPos.step]
    split_ifs with hq hr
    · simp only [EntPos.Inv]
      refine ⟨by omega, ?_, h2⟩
      rw [h1]
      constructor
      · intro
        omega
      · intro
        omega
    · exact ⟨h0, h1, h2⟩
    · exact ⟨h0, h1, h2⟩
  | manage price =>
    cases ep with
    | none =>
      cases sl with
      | none => exact ⟨h0, h1, h2⟩
      | some stop => exact ⟨h0, h1, h2⟩
    | some entry =>
      cases sl with
      | none => exact ⟨h0, h1, h2⟩
      | some stop =>
        simp only [EntPos.step]
        split_ifs with hq hstop hprofit hsell htrail hnew
        · exact ⟨h0, h1, h2⟩
        · simp [EntPos.Inv]
        · refine ⟨?_, ?_, rfl⟩
          · show (0 : ℤ) ≤ q - ((q.toNat / 2 : ℕ) : ℤ)
            omega
          · simp only [Option.isSome_some, true_iff]
            show 0 < q - ((q.toNat / 2 : ℕ) : ℤ)
            omega
        · exact ⟨h0, h1, h2⟩
        · exact ⟨h0, h1, h2⟩
        · exact ⟨h0, h1, h2⟩
        · exact ⟨h0, h1, h2⟩

theorem vpinpos_step_inv (s : VpinPos.State) (e : VpinPos.Event) (h : VpinPos.Inv s) :
    VpinPos.Inv (VpinPos.step s e) := by
  obtain ⟨q, ep, ev, sl⟩ := s
  obtain ⟨h0, h1, h2, h3⟩ := h
  replace h0 : (0 : ℤ) ≤ q := h0
  replace h1 : ep.isSome = true ↔ 0 < q := h1
  replace h2 : ev.isSome = ep.isSome := h2
  replace h3 : sl.isSome = ep.isSome := h3
  cases e with
  | enterLong shares price vpin =>
    simp only [VpinPos.step]
    split_ifs with hs
    · refine ⟨?_, ?_, rfl, rfl⟩
      · show (0 : ℤ) ≤ q + (shares : ℤ)
        omega
      · simp only [Option.isSome_some, true_iff]
        show 0 < q + (shares : ℤ)
        omega
    · exact ⟨h0, h1, h2, h3⟩
  | manage price cv =>
    cases ep with
    | none =>
      cases sl with
      | none => exact ⟨h0, h1, h2, h3⟩
      | some stop => exact ⟨h0, h1, h2, h3⟩
    | some entry =>
      cases sl with
      | none => exact ⟨h0, h1, h2, h3⟩
      | some stop =>
        cases cv with
        | none =>
          simp only [VpinPos.step, VpinPos.cleanup]
          split_ifs with hq hstop hprofit htrail
          · refine ⟨h0, ?_, rfl, rfl⟩
            simp only [Option.isSome_none, Bool.false_eq_true, false_iff]
            omega
          · exact ⟨le_refl 0, by simp, rfl, rfl⟩
          · exact ⟨le_refl 0, by simp, rfl, rfl⟩
          · exact ⟨h0, h1, h2, rfl⟩
          · exact ⟨h0, h1, h2, h3⟩
        | some c =>
          cases ev with
          | none =>
            simp only [VpinPos.step, VpinPos.cleanup]
            split_ifs with hq hstop hprofit htrail
            · refine ⟨h0, ?_, rfl, rfl⟩
              simp only [Option.isSome_none, Bool.false_eq_true, false_iff]
              omega
            · exact ⟨le_refl 0, by simp, rfl, rfl⟩
            · exact ⟨le_refl 0, by simp, rfl, rfl⟩
            · exact ⟨h0, h1, h2, rfl⟩
            · exact ⟨h0, h1, h2, h3⟩
          | some v =>
            simp only [VpinPos.step, VpinPos.cleanup]
            split_ifs with hq hstop hprofit hexit htrail
            · refine ⟨h0, ?_, rfl, rfl⟩
              simp only [Option.isSome_none, Bool.false_eq_true, false_iff]
              omega
            · exact ⟨le_refl 0, by simp, rfl, rfl⟩
            · exact ⟨le_refl 0, by simp, rfl, rfl⟩
            · exact ⟨le_refl 0, by simp, rfl, rfl⟩
            · exact ⟨h0, h1, h2, rfl⟩
            · exact ⟨h0, h1, h2, h3⟩

theorem fracpos_step_inv (s : FracPos.State) (e : FracPos.Event) (h : FracPos.Inv s) :
    FracPos.Inv (FracPos.step s e) := by
  obtain ⟨q, ep, eh, ed, bh⟩ := s
  obtain ⟨h0, h1, h2, h3, h4⟩ := h
  replace h0 : (0 : ℤ) ≤ q := h0
  replace h1 : ep.isSome = true ↔ 0 < q := h1
  replace h2 : eh.isSome = ep.isSome := h2
  replace h3 : ed.isSome = ep.isSome := h3
  replace h4 : bh.isSome = ep.isSome := h4
  cases e with
  | enterLong shares price hurst =>
    cases ep with
    | some entry =>
      simp only [FracPos.step, if_neg (by simp : ¬ (some entry = none))]
      exact ⟨h0, h1, h2, h3, h4⟩
    | none =>
      have hstep : FracPos.step ⟨q, none, eh, ed, bh⟩ (.enterLong shares price hurst) =
          if 0 < shares then
            ⟨q + (shares : ℤ), some price, some hurst,
              some (Hurst.EstimateMoveDuration hurst), some 0⟩
          else ⟨q, none, eh, ed, bh⟩ := by
        simp [FracPos.step]
      rw [hstep]
      split_ifs with hs
      · refine ⟨?_, ?_, rfl, rfl, rfl⟩
        · show (0 : ℤ) ≤ q + (shares : ℤ)
          omega
        · simp only [Option.isSome_some, true_iff]
          show 0 < q + (shares : ℤ)
          omega
      · exact ⟨h0, h1, h2, h3, h4⟩
  | hedgeLiquidate =>
    cases ep with
    | some entry =>
      simp only [FracPos.step, if_neg (by simp : ¬ (some entry = none))]
      exact ⟨h0, h1, h2, h3, h4⟩
    | none =>
      have hstep : FracPos.step ⟨q, none, eh, ed, bh⟩ .hedgeLiquidate =
          if 0 < q then ⟨0, none, eh, ed, bh⟩ else ⟨q, none, eh, ed, bh⟩ := by
        simp [FracPos.step]
      rw [hstep]
      split_ifs with hq
      · refine ⟨le_refl 0, ?_, h2, h3, h4⟩
        simp only [Option.isSome_none, Bool.false_eq_true, false_iff]
        omega
      · exact ⟨h0, h1, h2, h3, h4⟩
  | enterHedgeTLT shares price hurst =>
    simp only [FracPos.step]
    split_ifs with hs
    · refine ⟨?_, ?_, rfl, rfl, rfl⟩
      · show (0 : ℤ) ≤ q + (shares : ℤ)
        omega
      · simp only [Option.isSome_some, true_iff]
        show 0 < q + (shares : ℤ)
        omega
    · exact ⟨h0, h1, h2, h3, h4⟩
  | manage price =>
    cases ep with
    | none =>
      cases eh with
      | none =>
        cases ed with
        | none => exact ⟨h0, h1, h2, h3, h4⟩
        | some d => exact ⟨h0, h1, h2, h3, h4⟩
      | some hu =>
        cases ed with
        | none => exact ⟨h0, h1, h2, h3, h4⟩
        | some d => exact ⟨h0, h1, h2, h3, h4⟩
    | some entry =>
      cases eh with
      | none =>
        cases ed with
        | none => exact ⟨h0, h1, h2, h3, h4⟩
        | some d => exact ⟨h0, h1, h2, h3, h4⟩
      | some hu =>
        cases ed with
        | none => exact ⟨h0, h1, h2, h3, h4⟩
        | some d =>
          simp only [FracPos.step, FracPos.cleanup]
          split_ifs
          all_goals first
            | exact ⟨le_refl 0, by simp, rfl, rfl, rfl⟩
            | (refine ⟨h0, ?_, rfl, rfl, rfl⟩
               simp only [Option.isSome_none, Bool.false_eq_true, false_iff]
               omega)
            | (exfalso
               omega)
            | (refine ⟨h0, ?_, rfl, rfl, rfl⟩
               simp only [Option.isSome_some, true_iff]
               omega)
            | (have habs : (q.natAbs : ℤ) = q := Int.natAbs_of_nonneg h0
               refine ⟨?_, ?_, rfl, rfl, rfl⟩
               · show (0 : ℤ) ≤ q - (((2 * q.natAbs) / 5 : ℕ) : ℤ)
                 omega
               · simp only [Option.isSome_some, true_iff]
                 show 0 < q - (((2 * q.natAbs) / 5 : ℕ) : ℤ)
                 omega)

theorem entpos_reachable_inv (s : EntPos.State) (hs : EntPos.Reachable s) :
    EntPos.Inv s := by
  induction hs with
  | init => exact ⟨le_refl 0, by simp [EntPos.initState], rfl⟩
  | next s e _ ih => exact entpos_step_inv s e ih

theorem fracpos_reachable_inv (s : FracPos.State) (hs : FracPos.Reachable s) :
    FracPos.Inv s := by
  induction hs with
  | init => exact ⟨le_refl 0, by simp [FracPos.initState], rfl, rfl, rfl⟩
  | next s e _ ih => exact fracpos_step_inv s e ih

theorem vpinpos_reachable_inv (s : VpinPos.State) (hs : VpinPos.Reachable s) :
    VpinPos.Inv s := by
  induction hs with
  | init => exact ⟨le_refl 0, by simp [VpinPos.initState], rfl, rfl⟩
  | next s e _ ih => exact vpinpos_step_inv s e ih

/-! ## Claim C4: counterexample and amended theorem -/

/-- C4 counterexample: the claim that in every strategy a tracking
dictionary entry exists iff the position is open is false for
sector-rotation-velocity. A rebalance entry at price 100 for 10 shares
followed by the OnData stop-loss liquidation at price 80 reaches a state
whose position is closed (quantity 0) while entry_prices still holds the
symbol: no Liquidate path of that strategy deletes the entry. -/
theorem C4_counterexample :
    SecPos.Reachable
      (SecPos.step (SecPos.step SecPos.initState (.rebalanceEnter 10 100)) (.stopLoss 80)) ∧
    (SecPos.step (SecPos.step SecPos.initState (.rebalanceEnter 10 100))
      (.stopLoss 80)).qty = 0 ∧
    (SecPos.step (SecPos.step SecPos.initState (.rebalanceEnter 10 100))
      (.stopLoss 80)).entry_price = some 100 := by
  have hstep : SecPos.step (SecPos.step SecPos.initState (.rebalanceEnter 10 100))
      (.stopLoss 80) = ⟨0, some 100⟩ := by
    norm_num [SecPos.step, SecPos.initState]
  refine ⟨?_, ?_, ?_⟩
  · exact SecPos.Reachable.next _ _ (SecPos.Reachable.next _ _ SecPos.Reachable.init)
  · rw [hstep]
  · rw [hstep]

/-- C4 (amended): in the entropy-regime-detector, fractal-dimension-breakout
and vpin-toxicity-detector strategies, the per-position tracking dictionaries
(entry_prices, stop_losses, entry_hurst, expected_duration, bars_held,
entry_vpin) satisfy after every callback the invariant that a dictionary
entry for a symbol exists iff a position in that symbol is open, and the
dictionaries of one strategy always share the same key set; in
sector-rotation-velocity the liquidation paths do not delete entry_prices
entries, so the invariant fails there. -/
theorem C4_position_invariants :
    (∀ s : EntPos.State, EntPos.Reachable s → EntPos.Inv s) ∧
    (∀ s : FracPos.State, FracPos.Reachable s → FracPos.Inv s) ∧
    (∀ s : VpinPos.State, VpinPos.Reachable s → VpinPos.Inv s) :=
  ⟨entpos_reachable_inv, fracpos_reachable_inv, vpinpos_reachable_inv⟩

/-- Witness for the amended C4 at the three initial states. -/
theorem C4_position_invariants_witness :
    (EntPos.Reachable EntPos.initState ∧ EntPos.Inv EntPos.initState) ∧
    (FracPos.Reachable FracPos.initState ∧ FracPos.Inv FracPos.initState) ∧
    (VpinPos.Reachable VpinPos.initState ∧ VpinPos.Inv VpinPos.initState) :=
  ⟨⟨EntPos.Reachable.init, C4_position_invariants.1 _ EntPos.Reachable.init⟩,
    ⟨FracPos.Reachable.init, C4_position_invariants.2.1 _ FracPos.Reachable.init⟩,
    ⟨VpinPos.Reachable.init, C4_position_invariants.2.2 _ VpinPos.Reachable.init⟩⟩


end AlphaLab

